import Mathlib

/-!
Verification of the lab4 ranking / retrieval core of the Big-Data repository.

The development shallowly embeds the Python sources
`src/lab4/pagerank_mapreduce.py`, `src/lab4/pagerank_pregel.py` and
`src/lab4/search_engine.py`:

* Python `float` scores and ranks are embedded as `ℚ` (the claims state
  their numeric assertions "in exact arithmetic").
* Python `dict`s are embedded as insertion-ordered association lists
  (`List (α × β)`): assignment to a present key updates the entry in place,
  assignment to a fresh key appends.  Where only the values of a rank
  dictionary matter it is embedded as a total function `Nat → ℚ`
  (a `defaultdict(float)` is exactly such a function, defaulting to `0`).
* Strings (document contents, tokens) are embedded as `List Char`.
-/

namespace BigData

/-! ### Insertion-ordered dictionary model -/

/-- Python dictionary assignment `d[k] = v` on an insertion-ordered
association list: if `k` is present, the entry is replaced in place;
otherwise `(k, v)` is appended. -/
def dictInsert {α β : Type} [DecidableEq α] (l : List (α × β)) (k : α) (v : β) :
    List (α × β) :=
  if l.any (fun p => p.1 = k) then
    l.map (fun p => if p.1 = k then (k, v) else p)
  else
    l ++ [(k, v)]

/-- Python `d.get(k, default)` on an association list. -/
def pyGet {α β : Type} [DecidableEq α] (l : List (α × β)) (k : α) (default : β) : β :=
  match l.find? (fun p => p.1 = k) with
  | some p => p.2
  | none => default

/-! ### Tokenizer (`search_engine.py`, `TOKEN_RE` / `tokenize`) -/

/-- The word-character class of `TOKEN_RE = re.compile(r"[A-Za-zА-Яа-я0-9]+")`:
ASCII Latin letters, the Cyrillic code points U+0410 ('А') through U+042F ('Я')
and U+0430 ('а') through U+044F ('я') (two adjacent ranges), and ASCII digits. -/
def isWordChar (c : Char) : Bool :=
  (0x41 ≤ c.toNat && c.toNat ≤ 0x5A) ||     -- A-Z
  (0x61 ≤ c.toNat && c.toNat ≤ 0x7A) ||     -- a-z
  (0x410 ≤ c.toNat && c.toNat ≤ 0x42F) ||   -- А-Я
  (0x430 ≤ c.toNat && c.toNat ≤ 0x44F) ||   -- а-я
  (0x30 ≤ c.toNat && c.toNat ≤ 0x39)        -- 0-9

/-- Python `str.lower`, restricted to the code points the search engine ever
lowers (ASCII letters and the Cyrillic range А-Я matched by `TOKEN_RE`, plus
identity elsewhere): an upper-case ASCII or Cyrillic letter moves down by 32
code points, anything else is unchanged.  This agrees with `str.lower` on
every character of every token `TOKEN_RE` can produce. -/
def pyLower (c : Char) : Char :=
  if 0x41 ≤ c.toNat && c.toNat ≤ 0x5A then Char.ofNat (c.toNat + 32)
  else if 0x410 ≤ c.toNat && c.toNat ≤ 0x42F then Char.ofNat (c.toNat + 32)
  else c

/-- `re.findall` for a pattern of the shape `[class]+`: the maximal runs of
characters satisfying the class, in order. -/
def findTokens (s : List Char) : List (List Char) :=
  match s with
  | [] => []
  | c :: cs =>
    if isWordChar c then
      (c :: cs.takeWhile isWordChar) :: findTokens (cs.dropWhile isWordChar)
    else
      findTokens cs
termination_by s.length
decreasing_by
  · simp only [List.length_cons]
    exact Nat.lt_succ_of_le (List.dropWhile_sublist isWordChar).length_le
  · simp

/-- `tokenize(text)`: the runs matched by `TOKEN_RE`, each lower-cased. -/
def tokenize (s : List Char) : List (List Char) :=
  (findTokens s).map (fun t => t.map pyLower)

/-! ### Index build (`search_engine.py`, `build_inverted_index`) -/

/-- Python `Counter(tokens).items()`: per distinct token its number of
occurrences, keys ordered by first occurrence. -/
def counterItems (tokens : List (List Char)) : List (List Char × Nat) :=
  tokens.foldl (fun acc t => dictInsert acc t (pyGet acc t 0 + 1)) []

/-- `build_inverted_index`: walk the corpus rows `(doc_id, content)` (the
`url` and `title` columns are ignored by the build) and insert per document
the `Counter` of its tokens.  `content` is `Option (List Char)` because the
`documents.content` column is nullable; `tokenize(None)` raises `TypeError`
inside `re.findall`, which aborts the build — the embedding returns the
postings inserted before the abort together with a completion flag. -/
def build_inverted_index :
    List (Nat × Option (List Char)) → List (Nat × List (List Char × Nat)) × Bool
  | [] => ([], true)
  | (_, none) :: _ => ([], false)
  | (doc_id, some content) :: rest =>
    let r := build_inverted_index rest
    ((doc_id, counterItems (tokenize content)) :: r.1, r.2)

/-! ### Retrieval (`search_engine.py`, `search_by_documents` / `search_by_terms`)

The index is embedded as `post : String → List (Nat × Nat)`, the function
`term ↦ get_term_postings(conn, term)` returning `(doc_id, tf)` pairs
(sorted ascending by `doc_id` for every reachable index state).  The
authority vector is `Option (Nat → ℚ)`, the function
`doc_id ↦ pagerank.get(doc_id, 0.0)` when a vector is supplied. -/

/-- `t.lower()` on a query term. -/
def lowerTerm (t : String) : String := String.mk (t.data.map pyLower)

/-- The current ids `pl[indices[i]][0]` at the cursors of the merge loop,
with each list represented by its not-yet-consumed suffix. -/
def currentIds (ss : List (List (Nat × Nat))) : List Nat :=
  ss.map (fun s => (s.headD (0, 0)).1)

/-- `max_id = max(current_ids)` of the merge loop. -/
def maxId (ss : List (List (Nat × Nat))) : Nat :=
  (currentIds ss).foldr max 0

/-- `min_id = min(current_ids)` of the merge loop. -/
def minId (ss : List (List (Nat × Nat))) : Nat :=
  (currentIds ss).foldr min (maxId ss)

theorem le_foldr_max {l : List Nat} {x b : Nat} (hx : x ∈ l) : x ≤ l.foldr max b := by
  induction l with
  | nil => cases hx
  | cons a l ih =>
    rcases List.mem_cons.mp hx with rfl | hx
    · exact Nat.le_max_left _ _
    · exact le_trans (ih hx) (Nat.le_max_right _ _)

theorem foldr_min_of_all_eq {l : List Nat} {b : Nat} (h : ∀ x ∈ l, x = b) :
    l.foldr min b = b := by
  induction l with
  | nil => rfl
  | cons a l ih =>
    have ha : a = b := h a (List.mem_cons_self a l)
    have : l.foldr min b = b := ih (fun x hx => h x (List.mem_cons_of_mem a hx))
    simp [List.foldr_cons, this, ha]

/-- In the advance branch (`max_id ≠ min_id`) some cursor's current id is
strictly below `max_id`. -/
theorem exists_head_lt_maxId {ss : List (List (Nat × Nat))}
    (hne : ¬ maxId ss = minId ss) : ∃ s ∈ ss, (s.headD (0, 0)).1 < maxId ss := by
  by_contra hall
  push_neg at hall
  apply hne
  have hids : ∀ x ∈ currentIds ss, x = maxId ss := by
    intro x hx
    rcases List.mem_map.mp hx with ⟨s, hs, rfl⟩
    exact Nat.le_antisymm (le_foldr_max (List.mem_map_of_mem _ hs)) (hall s hs)
  exact (foldr_min_of_all_eq hids).symm

/-- Summed lengths strictly decrease when a pointwise length-nonincreasing
map strictly shrinks at least one entry. -/
theorem sum_map_length_lt {α : Type} (ss : List (List α)) (f : List α → List α)
    (hle : ∀ s ∈ ss, (f s).length ≤ s.length)
    (hlt : ∃ s ∈ ss, (f s).length < s.length) :
    ((ss.map f).map List.length).sum < (ss.map List.length).sum := by
  rw [List.map_map]
  induction ss with
  | nil => rcases hlt with ⟨s, hs, _⟩; cases hs
  | cons a l ih =>
    simp only [List.map_cons, List.sum_cons, Function.comp_apply]
    rcases hlt with ⟨s, hs, hslt⟩
    rcases List.mem_cons.mp hs with rfl | hs
    · refine Nat.add_lt_add_of_lt_of_le hslt ?_
      exact List.sum_le_sum (fun i hi => hle i (List.mem_cons_of_mem _ hi))
    · refine Nat.add_lt_add_of_le_of_lt (hle a (List.mem_cons_self a l)) ?_
      exact ih (fun i hi => hle i (List.mem_cons_of_mem _ hi)) ⟨s, hs, hslt⟩

/-- The document-at-a-time merge loop of `search_by_documents`.  Each posting
list is represented by the suffix that its cursor has not yet consumed
(`pl[indices[i]:]`), so advancing a cursor drops elements at the front.
One loop round:

* if some cursor is exhausted (some suffix is `[]`), the accumulated
  `results` dictionary is returned (blending and sorting happen in
  `search_by_documents` afterwards);
* if all current ids agree (`max_id == min_id`), that document is recorded
  with the sum of the term frequencies at the cursors and every cursor
  advances one step;
* otherwise every cursor advances while its current id is below `max_id`.

The `ss = []` guard only makes the recursion total; `search_by_documents`
never reaches the loop with an empty list of posting lists. -/
def mergeLoop (ss : List (List (Nat × Nat))) (results : List (Nat × ℚ)) :
    List (Nat × ℚ) :=
  if h : ss = [] ∨ (∃ s ∈ ss, s = []) then results
  else
    if hm : maxId ss = minId ss then
      mergeLoop (ss.map List.tail)
        (dictInsert results (maxId ss)
          ((ss.map (fun s => ((s.headD (0, 0)).2 : ℚ))).sum))
    else
      mergeLoop (ss.map (fun s => s.dropWhile (fun p => p.1 < maxId ss))) results
termination_by (ss.map List.length).sum
decreasing_by
  · push_neg at h
    rcases List.exists_mem_of_ne_nil ss h.1 with ⟨s, hs⟩
    refine sum_map_length_lt ss List.tail (fun t _ => ?_) ⟨s, hs, ?_⟩
    · rw [List.length_tail]; omega
    · have : s ≠ [] := fun he => h.2 s hs he
      rw [List.length_tail]
      exact Nat.pred_lt (by simpa [List.length_eq_zero] using this)
  · push_neg at h
    rcases exists_head_lt_maxId hm with ⟨s, hs, hsl⟩
    refine sum_map_length_lt ss _ (fun t _ => (List.dropWhile_sublist _).length_le)
      ⟨s, hs, ?_⟩
    have hne : s ≠ [] := fun he => h.2 s hs he
    rcases List.exists_cons_of_ne_nil hne with ⟨p, ps, rfl⟩
    have hsl' : p.1 < maxId ss := by simpa using hsl
    calc ((p :: ps).dropWhile (fun q => q.1 < maxId ss)).length
        = (ps.dropWhile (fun q => q.1 < maxId ss)).length := by
          rw [List.dropWhile_cons_of_pos (by simpa using hsl')]
      _ ≤ ps.length := (List.dropWhile_sublist _).length_le
      _ < (p :: ps).length := by simp

/-- `pagerank` blending: when an authority vector is supplied, every
recorded document's score is incremented by `alpha * pagerank.get(doc, 0.0)`
(in place, so the insertion order of the dictionary is unchanged). -/
def applyAuthority (pagerank : Option (Nat → ℚ)) (alpha : ℚ)
    (results : List (Nat × ℚ)) : List (Nat × ℚ) :=
  match pagerank with
  | none => results
  | some f => results.map (fun p => (p.1, p.2 + alpha * f p.1))

/-- `sorted(results.items(), key=lambda x: x[1], reverse=True)`: a stable
sort, descending by score. -/
def sortByScoreDesc (l : List (Nat × ℚ)) : List (Nat × ℚ) :=
  l.mergeSort (fun a b => decide (b.2 ≤ a.2))

/-- `search_by_documents` up to (but not including) the final sort: the
`results` dictionary of the merge loop in insertion order, with authority
blending applied.  The early return `[]` fires when the query is empty or
some term's posting list is empty. -/
def search_by_documents_raw (post : String → List (Nat × Nat))
    (query_terms : List String) (pagerank : Option (Nat → ℚ)) (alpha : ℚ) :
    List (Nat × ℚ) :=
  let terms := query_terms.map lowerTerm
  let postings_lists := terms.map post
  if postings_lists = [] ∨ postings_lists.any (fun pl => pl = []) then []
  else applyAuthority pagerank alpha (mergeLoop postings_lists [])

/-- `search_by_documents(query_terms, pagerank, alpha)`. -/
def search_by_documents (post : String → List (Nat × Nat))
    (query_terms : List String) (pagerank : Option (Nat → ℚ)) (alpha : ℚ) :
    List (Nat × ℚ) :=
  sortByScoreDesc (search_by_documents_raw post query_terms pagerank alpha)

/-- The term-at-a-time accumulation of `search_by_terms`:
`scores[doc_id] = scores.get(doc_id, 0.0) + float(tf)` over every posting of
every (lowered) query term in turn. -/
def accumulateScores (post : String → List (Nat × Nat)) (terms : List String) :
    List (Nat × ℚ) :=
  terms.foldl (fun scores term =>
    (post term).foldl
      (fun scores p => dictInsert scores p.1 (pyGet scores p.1 0 + (p.2 : ℚ)))
      scores) []

/-- `search_by_terms` up to (but not including) the final sort. -/
def search_by_terms_raw (post : String → List (Nat × Nat))
    (query_terms : List String) (pagerank : Option (Nat → ℚ)) (alpha : ℚ) :
    List (Nat × ℚ) :=
  applyAuthority pagerank alpha (accumulateScores post (query_terms.map lowerTerm))

/-- `search_by_terms(query_terms, pagerank, alpha)`. -/
def search_by_terms (post : String → List (Nat × Nat))
    (query_terms : List String) (pagerank : Option (Nat → ℚ)) (alpha : ℚ) :
    List (Nat × ℚ) :=
  sortByScoreDesc (search_by_terms_raw post query_terms pagerank alpha)

/-! ### PageRank, batch strategy (`pagerank_mapreduce.py`)

The graph built by `build_graph` is embedded as a node list
`nodes : List Nat` (the document ids, distinct since `documents.id` is a
primary key) and `outgoing : Nat → List Nat`, the function
`node ↦ outgoing.get(node, [])`.  Rank dictionaries keyed by the nodes are
embedded as total functions `Nat → ℚ`; only their values on `nodes` are ever
read or returned. -/

/-- The inner loops `for nb in …: contributions[nb] += share` of
`map_phase` (`contributions` is a `defaultdict(float)`, i.e. a total
function defaulting to `0`). -/
def addShares (c : Nat → ℚ) (targets : List Nat) (share : ℚ) : Nat → ℚ :=
  targets.foldl (fun c nb => fun m => if m = nb then c m + share else c m) c

/-- `map_phase(ranks, nodes, outgoing, N)`: every node splits its rank
evenly over its out-neighbours; a dangling node (no out-edges) splits its
rank evenly over all `N` nodes. -/
def map_phase (ranks : Nat → ℚ) (nodes : List Nat) (outgoing : Nat → List Nat)
    (N : Nat) : Nat → ℚ :=
  nodes.foldl (fun contributions node =>
    if outgoing node ≠ [] then
      addShares contributions (outgoing node) (ranks node / (outgoing node).length)
    else
      addShares contributions nodes (ranks node / N)) (fun _ => 0)

/-- `reduce_phase(contributions, nodes, N, damping)`: the dictionary
`{node: (1.0 - damping)/N + damping * contributions[node]}`, embedded as the
function of `node`. -/
def reduce_phase (contributions : Nat → ℚ) (N : Nat) (damping : ℚ) : Nat → ℚ :=
  fun node => (1 - damping) / N + damping * contributions node

/-- The rank dictionary of `pagerank_mapreduce` after `k` iterations,
starting from the uniform vector `1/N`. -/
def pagerank_mapreduce_iter (nodes : List Nat) (outgoing : Nat → List Nat)
    (damping : ℚ) : Nat → (Nat → ℚ)
  | 0 => fun _ => 1 / (nodes.length : ℚ)
  | k + 1 =>
    reduce_phase
      (map_phase (pagerank_mapreduce_iter nodes outgoing damping k) nodes outgoing
        nodes.length)
      nodes.length damping

/-! ### PageRank, vertex-centric strategy (`pagerank_pregel.py`) -/

/-- `Vertex.send_messages`: a vertex with out-links sends
`(dst, rank/len(out_links))` to each out-link destination; a dangling vertex
sends nothing. -/
def send_messages (out_links : List Nat) (rank : ℚ) : List (Nat × ℚ) :=
  if out_links = [] then []
  else out_links.map (fun dst => (dst, rank / (out_links.length : ℚ)))

/-- Appending sent messages to the per-destination message lists, embedded
directly as the per-destination sums that `Vertex.calculate` takes of those
lists (`incoming_sum = sum(messages)`). -/
def deliver (msgs : Nat → ℚ) (sent : List (Nat × ℚ)) : Nat → ℚ :=
  sent.foldl (fun msgs p => fun m => if m = p.1 then msgs m + p.2 else msgs m) msgs

/-- The message-sending phase of one superstep: every vertex's messages are
delivered; `incoming_sum` of vertex `v` is `pregelMessages … v`. -/
def pregelMessages (ranks : Nat → ℚ) (nodes : List Nat)
    (outgoing : Nat → List Nat) : Nat → ℚ :=
  nodes.foldl (fun msgs node => deliver msgs (send_messages (outgoing node) (ranks node)))
    (fun _ => 0)

/-- `dangling_rank = sum(v.rank for v in vertices.values() if not v.out_links)`,
computed from the pre-superstep ranks. -/
def dangling_rank (ranks : Nat → ℚ) (nodes : List Nat)
    (outgoing : Nat → List Nat) : ℚ :=
  ((nodes.filter (fun n => outgoing n = [])).map ranks).sum

/-- One Pregel superstep: `v.calculate(messages, N, damping)` followed by
`v.rank += damping * dangling_rank / N`. -/
def pregel_superstep (ranks : Nat → ℚ) (nodes : List Nat)
    (outgoing : Nat → List Nat) (N : Nat) (damping : ℚ) : Nat → ℚ :=
  fun v =>
    (1 - damping) / N + damping * pregelMessages ranks nodes outgoing v
      + damping * dangling_rank ranks nodes outgoing / N

/-- The vertex ranks of `pagerank_pregel` after `k` supersteps, starting
from the uniform vector `1/N` set by `Vertex.__init__`. -/
def pagerank_pregel_iter (nodes : List Nat) (outgoing : Nat → List Nat)
    (damping : ℚ) : Nat → (Nat → ℚ)
  | 0 => fun _ => 1 / (nodes.length : ℚ)
  | k + 1 =>
    pregel_superstep (pagerank_pregel_iter nodes outgoing damping k) nodes outgoing
      nodes.length damping

/-! ### Closed forms for the scatter / message-passing accumulations -/

theorem addShares_apply (c : Nat → ℚ) (targets : List Nat) (share : ℚ) (m : Nat) :
    addShares c targets share m = c m + share * (targets.count m : ℚ) := by
  induction targets generalizing c with
  | nil => simp [addShares]
  | cons t ts ih =>
    simp only [addShares, List.foldl_cons] at *
    rw [ih]
    by_cases hm : m = t
    · subst hm
      simp only [if_pos rfl, List.count_cons, beq_self_eq_true, if_pos]
      push_cast
      ring
    · simp only [if_neg hm, List.count_cons]
      have : (t == m) = false := by simpa using fun h => hm h.symm
      simp [this]

theorem map_phase_fold (ranks : Nat → ℚ) (outgoing : Nat → List Nat) (N : Nat)
    (nodesAll : List Nat) :
    ∀ (l : List Nat) (c : Nat → ℚ) (m : Nat),
      (l.foldl (fun contributions node =>
        if outgoing node ≠ [] then
          addShares contributions (outgoing node) (ranks node / (outgoing node).length)
        else
          addShares contributions nodesAll (ranks node / N)) c) m
      = c m + (l.map (fun node =>
          if outgoing node ≠ [] then
            ranks node / (outgoing node).length * (((outgoing node).count m : ℚ))
          else
            ranks node / N * ((nodesAll.count m : ℚ)))).sum := by
  intro l
  induction l with
  | nil => intro c m; simp
  | cons node l ih =>
    intro c m
    simp only [List.foldl_cons, List.map_cons, List.sum_cons]
    rw [ih]
    by_cases h : outgoing node ≠ []
    · simp only [if_pos h, addShares_apply]
      ring
    · simp only [if_neg h, addShares_apply]
      ring

/-- Every contribution entry after `map_phase` is the sum, over the nodes,
of that node's share times how often the entry's key occurs among the
node's scatter targets. -/
theorem map_phase_apply (ranks : Nat → ℚ) (nodes : List Nat)
    (outgoing : Nat → List Nat) (N : Nat) (m : Nat) :
    map_phase ranks nodes outgoing N m
      = (nodes.map (fun node =>
          if outgoing node ≠ [] then
            ranks node / (outgoing node).length * (((outgoing node).count m : ℚ))
          else
            ranks node / N * ((nodes.count m : ℚ)))).sum := by
  unfold map_phase
  rw [map_phase_fold ranks outgoing N nodes nodes (fun _ => 0) m]
  simp

theorem deliver_map (msgs : Nat → ℚ) (l : List Nat) (sh : ℚ) :
    deliver msgs (l.map (fun dst => (dst, sh))) = addShares msgs l sh := by
  unfold deliver addShares
  rw [List.foldl_map]

theorem pregelMessages_fold (ranks : Nat → ℚ) (outgoing : Nat → List Nat) :
    ∀ (l : List Nat) (c : Nat → ℚ) (m : Nat),
      (l.foldl (fun msgs node => deliver msgs (send_messages (outgoing node) (ranks node))) c) m
      = c m + (l.map (fun node =>
          if outgoing node = [] then 0
          else ranks node / (outgoing node).length * (((outgoing node).count m : ℚ)))).sum := by
  intro l
  induction l with
  | nil => intro c m; simp
  | cons node l ih =>
    intro c m
    simp only [List.foldl_cons, List.map_cons, List.sum_cons]
    rw [ih]
    by_cases h : outgoing node = []
    · simp [send_messages, h, deliver]
    · simp only [send_messages, if_neg h, deliver_map, addShares_apply]
      ring

/-- `incoming_sum` of each vertex: the sum, over the senders, of the
sender's share times how often the vertex occurs among its out-links. -/
theorem pregelMessages_apply (ranks : Nat → ℚ) (nodes : List Nat)
    (outgoing : Nat → List Nat) (m : Nat) :
    pregelMessages ranks nodes outgoing m
      = (nodes.map (fun node =>
          if outgoing node = [] then 0
          else ranks node / (outgoing node).length * (((outgoing node).count m : ℚ)))).sum := by
  unfold pregelMessages
  rw [pregelMessages_fold ranks outgoing nodes (fun _ => 0) m]
  simp

theorem dangling_rank_eq (ranks : Nat → ℚ) (nodes : List Nat)
    (outgoing : Nat → List Nat) :
    dangling_rank ranks nodes outgoing
      = (nodes.map (fun node => if outgoing node = [] then ranks node else 0)).sum := by
  unfold dangling_rank
  induction nodes with
  | nil => rfl
  | cons n ns ih =>
    by_cases h : outgoing n = [] <;>
      simp [List.filter_cons, h, ih]

/-! ### Summation helpers -/

theorem sum_map_const_q {α : Type} (l : List α) (c : ℚ) :
    (l.map (fun _ => c)).sum = l.length * c := by
  induction l with
  | nil => simp
  | cons a t ih =>
    simp only [List.map_cons, List.sum_cons, List.length_cons, ih]
    push_cast
    ring

theorem sum_map_sum_comm {α β : Type} (l : List α) (r : List β) (g : α → β → ℚ) :
    (l.map (fun a => (r.map (fun b => g a b)).sum)).sum
      = (r.map (fun b => (l.map (fun a => g a b)).sum)).sum := by
  induction l with
  | nil =>
    simp only [List.map_nil, List.sum_nil]
    rw [sum_map_const_q]
    ring
  | cons a t ih =>
    simp only [List.map_cons, List.sum_cons, ih]
    rw [← List.sum_map_add]

theorem sum_map_ite_eq_count (nodes : List Nat) (a : Nat) :
    (nodes.map (fun m => if a == m then (1:ℚ) else 0)).sum = (nodes.count a : ℚ) := by
  induction nodes with
  | nil => simp
  | cons n ns ih =>
    simp only [List.map_cons, List.sum_cons, ih, List.count_cons]
    by_cases h : a = n
    · subst h; simp; ring
    · have h1 : (a == n) = false := by simpa using h
      have h2 : (n == a) = false := by simpa using fun hh => h hh.symm
      simp [h1, h2]

theorem sum_count_eq_length (nodes l : List Nat) (hnd : nodes.Nodup)
    (hsub : ∀ x ∈ l, x ∈ nodes) :
    (nodes.map (fun m => (l.count m : ℚ))).sum = (l.length : ℚ) := by
  induction l with
  | nil => simp [sum_map_const_q]
  | cons a t ih =>
    have step : (nodes.map (fun m => ((a :: t).count m : ℚ)))
        = nodes.map (fun m => (t.count m : ℚ) + if a == m then (1:ℚ) else 0) := by
      refine List.map_congr_left (fun m _ => ?_)
      rw [List.count_cons]
      by_cases h : a = m
      · subst h; simp
      · have h1 : (a == m) = false := by simpa using h
        simp [h1]
    rw [step, List.sum_map_add, ih (fun x hx => hsub x (List.mem_cons_of_mem a hx)),
      sum_map_ite_eq_count]
    rw [List.count_eq_one_of_mem hnd (hsub a (List.mem_cons_self a t))]
    push_cast [List.length_cons]
    ring

/-- A node's scattered mass, summed over all destinations inside `nodes`,
is exactly its rank (both for the dangling and the non-dangling branch),
provided its out-edges stay inside the node set. -/
theorem scatter_sum_per_node (ranks : Nat → ℚ) (nodes : List Nat)
    (outgoing : Nat → List Nat) (hnd : nodes.Nodup) (hne : nodes ≠ [])
    {node : Nat} (hclosed : ∀ t ∈ outgoing node, t ∈ nodes) :
    (nodes.map (fun m =>
      if outgoing node ≠ [] then
        ranks node / (outgoing node).length * (((outgoing node).count m : ℚ))
      else
        ranks node / nodes.length * ((nodes.count m : ℚ)))).sum = ranks node := by
  have hN : (nodes.length : ℚ) ≠ 0 := by
    exact_mod_cast Nat.pos_iff_ne_zero.mp (List.length_pos.mpr hne)
  by_cases hout : outgoing node = []
  · simp only [hout, ne_eq, not_true_eq_false, if_false]
    rw [List.sum_map_mul_left, sum_count_eq_length nodes nodes hnd (fun x hx => hx)]
    field_simp
  · simp only [ne_eq, hout, not_false_eq_true, if_true]
    have hlen : ((outgoing node).length : ℚ) ≠ 0 := by
      exact_mod_cast Nat.pos_iff_ne_zero.mp (List.length_pos.mpr hout)
    rw [List.sum_map_mul_left, sum_count_eq_length nodes (outgoing node) hnd hclosed]
    field_simp

/-- The total contribution mass that `map_phase` places on the node set
equals the total rank mass it started from (closed graph, distinct nodes). -/
theorem map_phase_sum (ranks : Nat → ℚ) (nodes : List Nat)
    (outgoing : Nat → List Nat) (hnd : nodes.Nodup) (hne : nodes ≠ [])
    (hclosed : ∀ n ∈ nodes, ∀ t ∈ outgoing n, t ∈ nodes) :
    (nodes.map (fun m => map_phase ranks nodes outgoing nodes.length m)).sum
      = (nodes.map ranks).sum := by
  calc (nodes.map (fun m => map_phase ranks nodes outgoing nodes.length m)).sum
      = (nodes.map (fun m => (nodes.map (fun node =>
          if outgoing node ≠ [] then
            ranks node / (outgoing node).length * (((outgoing node).count m : ℚ))
          else
            ranks node / nodes.length * ((nodes.count m : ℚ)))).sum)).sum := by
        exact congrArg _ (List.map_congr_left fun m _ => map_phase_apply ..)
    _ = (nodes.map (fun node => (nodes.map (fun m =>
          if outgoing node ≠ [] then
            ranks node / (outgoing node).length * (((outgoing node).count m : ℚ))
          else
            ranks node / nodes.length * ((nodes.count m : ℚ)))).sum)).sum :=
        sum_map_sum_comm ..
    _ = (nodes.map ranks).sum := by
        exact congrArg _ (List.map_congr_left fun node hnode =>
          scatter_sum_per_node ranks nodes outgoing hnd hne (hclosed node hnode))

/-- The probability-mass invariant of the batch strategy, for any rank
vector whose mass on the nodes is `1`. -/
theorem reduce_map_sum_one (ranks : Nat → ℚ) (nodes : List Nat)
    (outgoing : Nat → List Nat) (damping : ℚ) (hnd : nodes.Nodup) (hne : nodes ≠ [])
    (hclosed : ∀ n ∈ nodes, ∀ t ∈ outgoing n, t ∈ nodes)
    (hsum : (nodes.map ranks).sum = 1) :
    (nodes.map (fun m =>
      reduce_phase (map_phase ranks nodes outgoing nodes.length) nodes.length damping m)).sum
      = 1 := by
  have hN : (nodes.length : ℚ) ≠ 0 := by
    exact_mod_cast Nat.pos_iff_ne_zero.mp (List.length_pos.mpr hne)
  simp only [reduce_phase]
  rw [List.sum_map_add, sum_map_const_q, List.sum_map_mul_left]
  have := map_phase_sum ranks nodes outgoing hnd hne hclosed
  rw [this, hsum]
  field_simp

theorem mapreduce_iter_sum (nodes : List Nat) (outgoing : Nat → List Nat)
    (damping : ℚ) (hnd : nodes.Nodup) (hne : nodes ≠ [])
    (hclosed : ∀ n ∈ nodes, ∀ t ∈ outgoing n, t ∈ nodes) (k : Nat) :
    (nodes.map (pagerank_mapreduce_iter nodes outgoing damping k)).sum = 1 := by
  have hN : (nodes.length : ℚ) ≠ 0 := by
    exact_mod_cast Nat.pos_iff_ne_zero.mp (List.length_pos.mpr hne)
  induction k with
  | zero =>
    simp only [pagerank_mapreduce_iter]
    rw [sum_map_const_q]
    field_simp
  | succ k ih =>
    simp only [pagerank_mapreduce_iter]
    exact reduce_map_sum_one _ nodes outgoing damping hnd hne hclosed ih

/-! ### Equivalence of the batch and the vertex-centric strategy -/

theorem map_phase_congr {ranks₁ ranks₂ : Nat → ℚ} (nodes : List Nat)
    (outgoing : Nat → List Nat) (N : Nat)
    (h : ∀ n ∈ nodes, ranks₁ n = ranks₂ n) :
    map_phase ranks₁ nodes outgoing N = map_phase ranks₂ nodes outgoing N := by
  funext m
  rw [map_phase_apply, map_phase_apply]
  exact congrArg _ (List.map_congr_left fun n hn => by rw [h n hn])

/-- One batch iteration and one Pregel superstep agree on every node of a
duplicate-free node list: the batch dangling redistribution hands each node
`rank/N` once, which is exactly the uniform `dangling_share` the superstep
adds after `calculate`. -/
theorem reduce_eq_superstep (ranks : Nat → ℚ) (nodes : List Nat)
    (outgoing : Nat → List Nat) (damping : ℚ) (hnd : nodes.Nodup)
    {v : Nat} (hv : v ∈ nodes) :
    reduce_phase (map_phase ranks nodes outgoing nodes.length) nodes.length damping v
      = pregel_superstep ranks nodes outgoing nodes.length damping v := by
  have hcnt : ((nodes.count v : ℚ)) = 1 := by
    exact_mod_cast List.count_eq_one_of_mem hnd hv
  have hmap : map_phase ranks nodes outgoing nodes.length v
      = pregelMessages ranks nodes outgoing v
        + dangling_rank ranks nodes outgoing / nodes.length := by
    rw [map_phase_apply, pregelMessages_apply, dangling_rank_eq]
    have hsplit : (nodes.map (fun node =>
        if outgoing node ≠ [] then
          ranks node / (outgoing node).length * (((outgoing node).count v : ℚ))
        else
          ranks node / nodes.length * ((nodes.count v : ℚ))))
        = nodes.map (fun node =>
          (if outgoing node = [] then 0
            else ranks node / (outgoing node).length * (((outgoing node).count v : ℚ)))
          + (if outgoing node = [] then ranks node else 0) * (nodes.length : ℚ)⁻¹) := by
      refine List.map_congr_left (fun node _ => ?_)
      by_cases h : outgoing node = []
      · simp only [h, hcnt]
        simp only [ne_eq, not_true_eq_false, if_false, if_true, if_pos trivial]
        rw [div_eq_mul_inv]
        ring
      · simp only [ne_eq, h, not_false_eq_true, if_true, if_neg h]
        simp
    rw [hsplit, List.sum_map_add]
    rw [List.sum_map_mul_right]
    rw [div_eq_mul_inv]
  simp only [reduce_phase, pregel_superstep, hmap]
  ring

/-- C2 helper: the two strategies' rank vectors agree on every node after
any number of iterations. -/
theorem iter_equiv (nodes : List Nat) (outgoing : Nat → List Nat)
    (damping : ℚ) (hnd : nodes.Nodup) (k : Nat) :
    ∀ v ∈ nodes, pagerank_mapreduce_iter nodes outgoing damping k v
      = pagerank_pregel_iter nodes outgoing damping k v := by
  induction k with
  | zero => intro v _; rfl
  | succ k ih =>
    intro v hv
    simp only [pagerank_mapreduce_iter, pagerank_pregel_iter]
    rw [map_phase_congr nodes outgoing nodes.length ih]
    rw [reduce_eq_superstep _ nodes outgoing damping hnd hv]

/-! ### Nonnegativity and lower bounds of the rank vectors -/

theorem map_phase_nonneg (ranks : Nat → ℚ) (nodes : List Nat)
    (outgoing : Nat → List Nat) (N : Nat)
    (h : ∀ n ∈ nodes, 0 ≤ ranks n) (m : Nat) :
    0 ≤ map_phase ranks nodes outgoing N m := by
  rw [map_phase_apply]
  refine List.sum_nonneg (fun x hx => ?_)
  rcases List.mem_map.mp hx with ⟨node, hnode, rfl⟩
  by_cases hout : outgoing node = []
  · simp only [hout, ne_eq, not_true_eq_false, if_false]
    exact mul_nonneg (div_nonneg (h node hnode) (Nat.cast_nonneg _)) (Nat.cast_nonneg _)
  · simp only [ne_eq, hout, not_false_eq_true, if_true]
    exact mul_nonneg (div_nonneg (h node hnode) (Nat.cast_nonneg _)) (Nat.cast_nonneg _)

theorem pregelMessages_nonneg (ranks : Nat → ℚ) (nodes : List Nat)
    (outgoing : Nat → List Nat)
    (h : ∀ n ∈ nodes, 0 ≤ ranks n) (m : Nat) :
    0 ≤ pregelMessages ranks nodes outgoing m := by
  rw [pregelMessages_apply]
  refine List.sum_nonneg (fun x hx => ?_)
  rcases List.mem_map.mp hx with ⟨node, hnode, rfl⟩
  by_cases hout : outgoing node = []
  · simp [hout]
  · simp only [hout, if_false]
    exact mul_nonneg (div_nonneg (h node hnode) (Nat.cast_nonneg _)) (Nat.cast_nonneg _)

theorem dangling_rank_nonneg (ranks : Nat → ℚ) (nodes : List Nat)
    (outgoing : Nat → List Nat)
    (h : ∀ n ∈ nodes, 0 ≤ ranks n) :
    0 ≤ dangling_rank ranks nodes outgoing := by
  unfold dangling_rank
  refine List.sum_nonneg (fun x hx => ?_)
  rcases List.mem_map.mp hx with ⟨node, hnode, rfl⟩
  exact h node (List.mem_of_mem_filter hnode)

theorem mapreduce_iter_nonneg (nodes : List Nat) (outgoing : Nat → List Nat)
    (damping : ℚ) (hd0 : 0 ≤ damping) (hd1 : damping ≤ 1) :
    ∀ k m, 0 ≤ pagerank_mapreduce_iter nodes outgoing damping k m := by
  intro k
  induction k with
  | zero =>
    intro m
    simp only [pagerank_mapreduce_iter]
    exact div_nonneg zero_le_one (Nat.cast_nonneg _)
  | succ k ih =>
    intro m
    simp only [pagerank_mapreduce_iter, reduce_phase]
    refine add_nonneg (div_nonneg (by linarith) (Nat.cast_nonneg _)) ?_
    exact mul_nonneg hd0 (map_phase_nonneg _ nodes outgoing _ (fun n _ => ih n) m)

theorem pregel_iter_nonneg (nodes : List Nat) (outgoing : Nat → List Nat)
    (damping : ℚ) (hd0 : 0 ≤ damping) (hd1 : damping ≤ 1) :
    ∀ k m, 0 ≤ pagerank_pregel_iter nodes outgoing damping k m := by
  intro k
  induction k with
  | zero =>
    intro m
    simp only [pagerank_pregel_iter]
    exact div_nonneg zero_le_one (Nat.cast_nonneg _)
  | succ k ih =>
    intro m
    simp only [pagerank_pregel_iter, pregel_superstep]
    refine add_nonneg (add_nonneg (div_nonneg (by linarith) (Nat.cast_nonneg _)) ?_) ?_
    · exact mul_nonneg hd0 (pregelMessages_nonneg _ nodes outgoing (fun n _ => ih n) m)
    · refine div_nonneg (mul_nonneg hd0 ?_) (Nat.cast_nonneg _)
      exact dangling_rank_nonneg _ nodes outgoing (fun n _ => ih n)

/-! ### Concrete instances used by witnesses -/

/-- A small concrete graph: `1 → 2`, `2 → 1`, node `3` dangling. -/
def exNodes : List Nat := [1, 2, 3]

/-- Out-edge map of the concrete graph. -/
def exOutgoing : Nat → List Nat := fun n =>
  if n = 1 then [2] else if n = 2 then [1] else []

/-! ### Claim theorems on the ranking strategies -/

/-- C1: for every non-empty graph (`N ≥ 1` distinct nodes, out-edges inside
the node set) and every damping in `[0,1]`, after each iteration of
BatchRank (`map_phase` followed by `reduce_phase`) starting from the uniform
vector `1/N`, the rank values over all nodes sum to exactly `1` in exact
arithmetic — including when some nodes have zero out-edges, whose mass the
scatter phase redistributes uniformly. -/
theorem batchRank_sum_one (nodes : List Nat) (outgoing : Nat → List Nat)
    (damping : ℚ) (k : Nat) (hne : nodes ≠ []) (hnd : nodes.Nodup)
    (hclosed : ∀ n ∈ nodes, ∀ t ∈ outgoing n, t ∈ nodes)
    (hd0 : 0 ≤ damping) (hd1 : damping ≤ 1) :
    (nodes.map (pagerank_mapreduce_iter nodes outgoing damping k)).sum = 1 :=
  mapreduce_iter_sum nodes outgoing damping hnd hne hclosed k

/-- Witness for C1 on the concrete three-node graph with a dangling node. -/
theorem batchRank_sum_one_instance :
    (exNodes ≠ [] ∧ exNodes.Nodup
      ∧ (∀ n ∈ exNodes, ∀ t ∈ exOutgoing n, t ∈ exNodes)
      ∧ (0:ℚ) ≤ 17/20 ∧ (17/20 : ℚ) ≤ 1)
    ∧ (exNodes.map (pagerank_mapreduce_iter exNodes exOutgoing (17/20) 2)).sum = 1 :=
  ⟨⟨by decide, by decide, by decide, by norm_num, by norm_num⟩,
    batchRank_sum_one exNodes exOutgoing (17/20) 2 (by decide) (by decide) (by decide)
      (by norm_num) (by norm_num)⟩

/-- C2: for every graph (distinct nodes), iteration count and damping
factor, the rank the batch strategy (`pagerank_mapreduce`) assigns to a
document equals the rank the vertex-centric superstep strategy
(`pagerank_pregel`) assigns to it — exactly, in exact arithmetic. -/
theorem batch_pregel_equivalent (nodes : List Nat) (outgoing : Nat → List Nat)
    (damping : ℚ) (k : Nat) (hnd : nodes.Nodup) {v : Nat} (hv : v ∈ nodes) :
    pagerank_mapreduce_iter nodes outgoing damping k v
      = pagerank_pregel_iter nodes outgoing damping k v :=
  iter_equiv nodes outgoing damping hnd k v hv

/-- Witness for C2 on the concrete three-node graph. -/
theorem batch_pregel_equivalent_instance :
    (exNodes.Nodup ∧ 2 ∈ exNodes)
    ∧ pagerank_mapreduce_iter exNodes exOutgoing (17/20) 4 2
      = pagerank_pregel_iter exNodes exOutgoing (17/20) 4 2 :=
  ⟨⟨by decide, by decide⟩,
    batch_pregel_equivalent exNodes exOutgoing (17/20) 4 (by decide) (by decide)⟩

/-- C10: for every non-empty graph and damping in `[0,1)`, every document's
rank stays strictly positive at every iteration of either strategy, and
after each iteration (`k ≥ 1`) it is at least `(1 - damping)/N`. -/
theorem rank_entries_lower_bounded (nodes : List Nat) (outgoing : Nat → List Nat)
    (damping : ℚ) (k v : Nat) (hne : nodes ≠ []) (hv : v ∈ nodes)
    (hd0 : 0 ≤ damping) (hd1 : damping < 1) :
    (0 < pagerank_mapreduce_iter nodes outgoing damping k v
      ∧ 0 < pagerank_pregel_iter nodes outgoing damping k v)
    ∧ (1 ≤ k →
        (1 - damping) / nodes.length
            ≤ pagerank_mapreduce_iter nodes outgoing damping k v
        ∧ (1 - damping) / nodes.length
            ≤ pagerank_pregel_iter nodes outgoing damping k v) := by
  have hN : (0:ℚ) < (nodes.length : ℚ) := by
    exact_mod_cast List.length_pos.mpr hne
  have hb : 0 < (1 - damping) / (nodes.length : ℚ) := div_pos (by linarith) hN
  have hd1' : damping ≤ 1 := le_of_lt hd1
  cases k with
  | zero =>
    refine ⟨⟨?_, ?_⟩, fun h => absurd h (by decide)⟩
    · simp only [pagerank_mapreduce_iter]
      exact div_pos one_pos hN
    · simp only [pagerank_pregel_iter]
      exact div_pos one_pos hN
  | succ j =>
    have hmR : 0 ≤ damping *
        map_phase (pagerank_mapreduce_iter nodes outgoing damping j) nodes outgoing
          nodes.length v :=
      mul_nonneg hd0 (map_phase_nonneg _ nodes outgoing _
        (fun n _ => mapreduce_iter_nonneg nodes outgoing damping hd0 hd1' j n) v)
    have hmsg : 0 ≤ damping *
        pregelMessages (pagerank_pregel_iter nodes outgoing damping j) nodes outgoing v :=
      mul_nonneg hd0 (pregelMessages_nonneg _ nodes outgoing
        (fun n _ => pregel_iter_nonneg nodes outgoing damping hd0 hd1' j n) v)
    have hdang : 0 ≤ damping *
        dangling_rank (pagerank_pregel_iter nodes outgoing damping j) nodes outgoing
          / (nodes.length : ℚ) :=
      div_nonneg (mul_nonneg hd0 (dangling_rank_nonneg _ nodes outgoing
        (fun n _ => pregel_iter_nonneg nodes outgoing damping hd0 hd1' j n))) (le_of_lt hN)
    have h1 : (1 - damping) / (nodes.length : ℚ)
        ≤ pagerank_mapreduce_iter nodes outgoing damping (j + 1) v := by
      simp only [pagerank_mapreduce_iter, reduce_phase]
      linarith
    have h2 : (1 - damping) / (nodes.length : ℚ)
        ≤ pagerank_pregel_iter nodes outgoing damping (j + 1) v := by
      simp only [pagerank_pregel_iter, pregel_superstep]
      linarith
    exact ⟨⟨lt_of_lt_of_le hb h1, lt_of_lt_of_le hb h2⟩, fun _ => ⟨h1, h2⟩⟩

/-- Witness for C10 on the concrete three-node graph. -/
theorem rank_entries_lower_bounded_instance :
    (exNodes ≠ [] ∧ 3 ∈ exNodes ∧ (0:ℚ) ≤ 1/2 ∧ (1/2 : ℚ) < 1)
    ∧ ((0 < pagerank_mapreduce_iter exNodes exOutgoing (1/2) 1 3
        ∧ 0 < pagerank_pregel_iter exNodes exOutgoing (1/2) 1 3)
      ∧ (1 ≤ 1 →
          (1 - 1/2 : ℚ) / exNodes.length
              ≤ pagerank_mapreduce_iter exNodes exOutgoing (1/2) 1 3
          ∧ (1 - 1/2 : ℚ) / exNodes.length
              ≤ pagerank_pregel_iter exNodes exOutgoing (1/2) 1 3)) :=
  ⟨⟨by decide, by decide, by norm_num, by norm_num⟩,
    rank_entries_lower_bounded exNodes exOutgoing (1/2) 1 3 (by decide) (by decide)
      (by norm_num) (by norm_num)⟩

/-! ### The final sort: descending by score, stable -/

theorem scoreDesc_trans (a b c : Nat × ℚ) (hab : decide (b.2 ≤ a.2) = true)
    (hbc : decide (c.2 ≤ b.2) = true) : decide (c.2 ≤ a.2) = true := by
  simp only [decide_eq_true_eq] at *
  exact le_trans hbc hab

theorem scoreDesc_total (a b : Nat × ℚ) :
    (decide (b.2 ≤ a.2) || decide (a.2 ≤ b.2)) = true := by
  rcases le_total a.2 b.2 with h | h <;> simp [h]

theorem sortByScoreDesc_sorted (l : List (Nat × ℚ)) :
    (sortByScoreDesc l).Pairwise (fun a b => b.2 ≤ a.2) :=
  (List.sorted_mergeSort scoreDesc_trans scoreDesc_total l).imp
    (fun hab => of_decide_eq_true hab)

theorem sortByScoreDesc_perm (l : List (Nat × ℚ)) : List.Perm (sortByScoreDesc l) l :=
  List.mergeSort_perm l _

/-- Stability of the final sort: the entries carrying one fixed score appear
in the sorted output exactly in their pre-sort order. -/
theorem sortByScoreDesc_filter_eq (l : List (Nat × ℚ)) (s : ℚ) :
    (sortByScoreDesc l).filter (fun p => p.2 = s) = l.filter (fun p => p.2 = s) := by
  have hpw : (l.filter (fun p => p.2 = s)).Pairwise
      (fun a b : Nat × ℚ => decide (b.2 ≤ a.2)) := by
    refine List.pairwise_of_forall_mem_list ?_
    intro a ha b hb
    have ha2 : a.2 = s := by simpa using (List.mem_filter.mp ha).2
    have hb2 : b.2 = s := by simpa using (List.mem_filter.mp hb).2
    simp [ha2, hb2]
  have hsub : List.Sublist (l.filter (fun p => p.2 = s)) (sortByScoreDesc l) :=
    List.sublist_mergeSort scoreDesc_trans scoreDesc_total hpw (List.filter_sublist l)
  have hfix : (l.filter (fun p => p.2 = s)).filter (fun p => p.2 = s)
      = l.filter (fun p => p.2 = s) :=
    List.filter_eq_self.mpr (fun a ha => (List.mem_filter.mp ha).2)
  have h2 : List.Sublist (l.filter (fun p => p.2 = s))
      ((sortByScoreDesc l).filter (fun p => p.2 = s)) := by
    have := hsub.filter (fun p => p.2 = s)
    rwa [hfix] at this
  have hlen : ((sortByScoreDesc l).filter (fun p => p.2 = s)).length
      = (l.filter (fun p => p.2 = s)).length :=
    ((sortByScoreDesc_perm l).filter _).length_eq
  exact (h2.eq_of_length hlen.symm).symm

/-! ### Claim theorems on blending, short-circuit and result order -/

/-- C6: supplying an authority vector with `alpha = 0` yields, for both
retrieval strategies, exactly the result of supplying no authority vector
(same documents, same scores, same order). -/
theorem alpha_zero_like_no_authority (post : String → List (Nat × Nat))
    (query : List String) (pr : Nat → ℚ) (alpha : ℚ) :
    search_by_documents post query (some pr) 0 = search_by_documents post query none alpha
    ∧ search_by_terms post query (some pr) 0 = search_by_terms post query none alpha := by
  have hzero : ∀ l : List (Nat × ℚ), applyAuthority (some pr) 0 l = l := by
    intro l
    simp [applyAuthority]
  constructor
  · unfold search_by_documents search_by_documents_raw
    congr 1
    dsimp only
    split
    · rfl
    · rw [hzero]
      rfl
  · unfold search_by_terms search_by_terms_raw
    rw [hzero]
    rfl

/-- Concrete posting function used by witnesses: term `a` occurs in
documents `1, 2, 3`, term `b` in documents `2, 3, 4`, nothing else is
indexed. -/
def postEx : String → List (Nat × Nat) := fun t =>
  if t = "a" then [(1, 1), (2, 2), (3, 1)]
  else if t = "b" then [(2, 3), (3, 1), (4, 1)]
  else []

/-- C4: a query term whose posting list is empty makes `search_by_documents`
return the empty result (the guard fires before the merge loop), while
`search_by_terms` is unaffected by that term: its result equals the result
for the query with the term removed. -/
theorem absent_term_shortcircuit_and_union_unaffected
    (post : String → List (Nat × Nat)) (q1 q2 : List String) (t : String)
    (pr : Option (Nat → ℚ)) (alpha : ℚ)
    (hempty : post (lowerTerm t) = []) :
    search_by_documents post (q1 ++ t :: q2) pr alpha = []
    ∧ search_by_terms post (q1 ++ t :: q2) pr alpha
        = search_by_terms post (q1 ++ q2) pr alpha := by
  constructor
  · unfold search_by_documents search_by_documents_raw
    have hany : (((q1 ++ t :: q2).map lowerTerm).map post).any (fun pl => pl = []) = true := by
      rw [List.any_eq_true]
      refine ⟨post (lowerTerm t), ?_, by simp [hempty]⟩
      exact List.mem_map_of_mem post (List.mem_map_of_mem lowerTerm (by simp))
    rw [if_pos (Or.inr hany)]
    simp [sortByScoreDesc]
  · unfold search_by_terms search_by_terms_raw accumulateScores
    simp only [List.map_append, List.map_cons, List.foldl_append, List.foldl_cons, hempty,
      List.foldl_nil]

/-- Witness for C4 on the concrete postings, with the unindexed term `c`. -/
theorem absent_term_shortcircuit_instance :
    postEx (lowerTerm "c") = []
    ∧ (search_by_documents postEx (["a"] ++ "c" :: []) none (1/10) = []
      ∧ search_by_terms postEx (["a"] ++ "c" :: []) none (1/10)
          = search_by_terms postEx (["a"] ++ []) none (1/10)) :=
  ⟨by decide,
    absent_term_shortcircuit_and_union_unaffected postEx ["a"] [] "c" none (1/10) (by decide)⟩

/-- C7: for both retrieval strategies the returned list is sorted descending
by score, and entries with equal scores keep the order in which the merge /
accumulation first produced them (the pre-sort `results` dictionary order). -/
theorem results_sorted_and_stable (post : String → List (Nat × Nat))
    (query : List String) (pr : Option (Nat → ℚ)) (alpha : ℚ) :
    ((search_by_documents post query pr alpha).Pairwise (fun a b => b.2 ≤ a.2)
      ∧ ∀ s : ℚ, (search_by_documents post query pr alpha).filter (fun p => p.2 = s)
          = (search_by_documents_raw post query pr alpha).filter (fun p => p.2 = s))
    ∧ ((search_by_terms post query pr alpha).Pairwise (fun a b => b.2 ≤ a.2)
      ∧ ∀ s : ℚ, (search_by_terms post query pr alpha).filter (fun p => p.2 = s)
          = (search_by_terms_raw post query pr alpha).filter (fun p => p.2 = s)) :=
  ⟨⟨sortByScoreDesc_sorted _, fun s => sortByScoreDesc_filter_eq _ s⟩,
    ⟨sortByScoreDesc_sorted _, fun s => sortByScoreDesc_filter_eq _ s⟩⟩

/-! ### Key sets of the score dictionaries -/

/-- The document ids of a posting list. -/
def docIds (pl : List (Nat × Nat)) : List Nat := pl.map Prod.fst

theorem mem_keys_dictInsert {α β : Type} [DecidableEq α]
    (l : List (α × β)) (k : α) (v : β) (d : α) :
    d ∈ (dictInsert l k v).map Prod.fst ↔ d ∈ l.map Prod.fst ∨ d = k := by
  unfold dictInsert
  by_cases h : l.any (fun p => p.1 = k)
  · rw [if_pos h]
    rw [List.map_map]
    constructor
    · intro hd
      rcases List.mem_map.mp hd with ⟨p, hp, hpd⟩
      by_cases hpk : p.1 = k
      · right
        simp only [Function.comp_apply, if_pos hpk] at hpd
        exact hpd.symm
      · left
        simp only [Function.comp_apply, if_neg hpk] at hpd
        exact hpd ▸ List.mem_map_of_mem Prod.fst hp
    · intro hd
      rcases hd with hd | rfl
      · rcases List.mem_map.mp hd with ⟨p, hp, rfl⟩
        by_cases hpk : p.1 = k
        · rcases List.any_eq_true.mp h with ⟨q, hq, hqk⟩
          refine List.mem_map.mpr ⟨q, hq, ?_⟩
          simp only [Function.comp_apply, if_pos (of_decide_eq_true hqk)]
          exact hpk.symm
        · exact List.mem_map.mpr ⟨p, hp, by simp [hpk]⟩
      · rcases List.any_eq_true.mp h with ⟨q, hq, hqk⟩
        refine List.mem_map.mpr ⟨q, hq, ?_⟩
        simp [of_decide_eq_true hqk]
  · rw [if_neg h]
    simp [List.mem_map, or_comm]

theorem mem_keys_postings_fold (post₀ : List (Nat × Nat)) :
    ∀ (sc : List (Nat × ℚ)) (d : Nat),
    (d ∈ (post₀.foldl
        (fun scores p => dictInsert scores p.1 (pyGet scores p.1 0 + (p.2 : ℚ))) sc).map Prod.fst)
      ↔ d ∈ sc.map Prod.fst ∨ d ∈ docIds post₀ := by
  induction post₀ with
  | nil => intro sc d; simp [docIds]
  | cons p ps ih =>
    intro sc d
    simp only [List.foldl_cons]
    rw [ih]
    rw [mem_keys_dictInsert]
    simp only [docIds, List.map_cons, List.mem_cons]
    tauto

theorem mem_keys_accumulate (post : String → List (Nat × Nat)) :
    ∀ (terms : List String) (sc : List (Nat × ℚ)) (d : Nat),
    (d ∈ (terms.foldl (fun scores term =>
        (post term).foldl
          (fun scores p => dictInsert scores p.1 (pyGet scores p.1 0 + (p.2 : ℚ))) scores)
        sc).map Prod.fst)
      ↔ d ∈ sc.map Prod.fst ∨ ∃ t ∈ terms, d ∈ docIds (post t) := by
  intro terms
  induction terms with
  | nil => intro sc d; simp
  | cons t ts ih =>
    intro sc d
    simp only [List.foldl_cons]
    rw [ih, mem_keys_postings_fold]
    simp only [List.mem_cons]
    constructor
    · rintro ((h | h) | ⟨u, hu, hd⟩)
      · exact Or.inl h
      · exact Or.inr ⟨t, Or.inl rfl, h⟩
      · exact Or.inr ⟨u, Or.inr hu, hd⟩
    · rintro (h | ⟨u, rfl | hu, hd⟩)
      · exact Or.inl (Or.inl h)
      · exact Or.inl (Or.inr hd)
      · exact Or.inr ⟨u, hu, hd⟩

theorem keys_applyAuthority (pr : Option (Nat → ℚ)) (alpha : ℚ) (l : List (Nat × ℚ)) :
    (applyAuthority pr alpha l).map Prod.fst = l.map Prod.fst := by
  match pr with
  | none => rfl
  | some f =>
    simp only [applyAuthority, List.map_map]
    exact List.map_congr_left (fun p _ => rfl)

theorem exists_score_iff_mem_keys (l : List (Nat × ℚ)) (d : Nat) :
    (∃ s, (d, s) ∈ l) ↔ d ∈ l.map Prod.fst := by
  constructor
  · rintro ⟨s, hs⟩
    exact List.mem_map.mpr ⟨(d, s), hs, rfl⟩
  · intro hd
    rcases List.mem_map.mp hd with ⟨p, hp, rfl⟩
    exact ⟨p.2, hp⟩

/-! ### Keys produced by the merge loop -/

theorem foldr_min_le_mem {l : List Nat} {x b : Nat} (hx : x ∈ l) : l.foldr min b ≤ x := by
  induction l with
  | nil => cases hx
  | cons a t ih =>
    rcases List.mem_cons.mp hx with rfl | hx
    · exact Nat.min_le_left _ _
    · exact le_trans (Nat.min_le_right _ _) (ih hx)

/-- In the match branch (`max_id == min_id`) every cursor's current id is
`max_id`. -/
theorem currentIds_all_eq {ss : List (List (Nat × Nat))}
    (hm : maxId ss = minId ss) :
    ∀ s ∈ ss, (s.headD (0, 0)).1 = maxId ss := by
  intro s hs
  have hmem : (s.headD (0, 0)).1 ∈ currentIds ss := List.mem_map_of_mem _ hs
  have h1 : (s.headD (0, 0)).1 ≤ maxId ss := le_foldr_max hmem
  have h2 : minId ss ≤ (s.headD (0, 0)).1 := foldr_min_le_mem hmem
  omega

theorem headD_mem {s : List (Nat × Nat)} (h : s ≠ []) : s.headD (0, 0) ∈ s := by
  cases s with
  | nil => exact absurd rfl h
  | cons p ps => exact List.mem_cons_self p ps

/-- Every key the merge loop records is, at recording time, present in every
remaining posting-list suffix; hence every key of the final dictionary comes
from the initial dictionary or occurs in every input list. -/
theorem mergeLoop_keys (ss : List (List (Nat × Nat))) (res : List (Nat × ℚ)) :
    ∀ p ∈ mergeLoop ss res, p.1 ∈ res.map Prod.fst ∨ ∀ s ∈ ss, p.1 ∈ docIds s := by
  induction ss, res using mergeLoop.induct with
  | case1 ss res h =>
    intro p hp
    rw [mergeLoop, dif_pos h] at hp
    exact Or.inl (List.mem_map_of_mem _ hp)
  | case2 ss res h hm ih =>
    intro p hp
    rw [mergeLoop, dif_neg h, dif_pos hm] at hp
    push_neg at h
    rcases ih p hp with hk | hk
    · rw [mem_keys_dictInsert] at hk
      rcases hk with hk | hk
      · exact Or.inl hk
      · refine Or.inr (fun s hs => ?_)
        rw [hk]
        have := currentIds_all_eq hm s hs
        exact this ▸ List.mem_map_of_mem _ (headD_mem (h.2 s hs))
    · refine Or.inr (fun s hs => ?_)
      have := hk s.tail (List.mem_map_of_mem _ hs)
      rcases List.mem_map.mp this with ⟨q, hq, hqe⟩
      exact hqe ▸ List.mem_map_of_mem _ (List.mem_of_mem_tail hq)
  | case3 ss res h hm ih =>
    intro p hp
    rw [mergeLoop, dif_neg h, dif_neg hm] at hp
    rcases ih p hp with hk | hk
    · exact Or.inl hk
    · refine Or.inr (fun s hs => ?_)
      have := hk (s.dropWhile (fun q => q.1 < maxId ss)) (List.mem_map_of_mem _ hs)
      rcases List.mem_map.mp this with ⟨q, hq, hqe⟩
      exact hqe ▸ List.mem_map_of_mem _ ((List.dropWhile_sublist _).mem hq)

/-- C5: the documents returned by `search_by_terms` are exactly those
occurring in at least one query term's posting list, and they include every
document returned by `search_by_documents` on the same query and index. -/
theorem union_exact_and_superset_of_intersection
    (post : String → List (Nat × Nat)) (query : List String)
    (pr : Option (Nat → ℚ)) (alpha : ℚ) :
    (∀ d : Nat, (∃ s, (d, s) ∈ search_by_terms post query pr alpha)
        ↔ ∃ t ∈ query, d ∈ docIds (post (lowerTerm t)))
    ∧ ∀ d s, (d, s) ∈ search_by_documents post query pr alpha
        → ∃ s', (d, s') ∈ search_by_terms post query pr alpha := by
  have hterms : ∀ d : Nat, (∃ s, (d, s) ∈ search_by_terms post query pr alpha)
      ↔ ∃ t ∈ query, d ∈ docIds (post (lowerTerm t)) := by
    intro d
    rw [exists_score_iff_mem_keys]
    unfold search_by_terms search_by_terms_raw
    have hperm := (sortByScoreDesc_perm
      (applyAuthority pr alpha (accumulateScores post (query.map lowerTerm)))).map Prod.fst
    rw [hperm.mem_iff, keys_applyAuthority]
    unfold accumulateScores
    rw [mem_keys_accumulate]
    simp [List.mem_map]
  refine ⟨hterms, fun d s hmem => ?_⟩
  rw [hterms d]
  unfold search_by_documents search_by_documents_raw at hmem
  rw [(sortByScoreDesc_perm _).mem_iff] at hmem
  dsimp only at hmem
  split at hmem
  · cases hmem
  · rename_i hguard
    push_neg at hguard
    rcases List.mem_map.mp ((keys_applyAuthority pr alpha _).symm ▸
      List.mem_map_of_mem Prod.fst hmem) with ⟨q, hq, hqd⟩
    have hkey : (d, s).1 ∈ (applyAuthority pr alpha
        (mergeLoop ((query.map lowerTerm).map post) [])).map Prod.fst :=
      List.mem_map_of_mem _ hmem
    rw [keys_applyAuthority] at hkey
    rcases List.mem_map.mp hkey with ⟨p, hp, hpd⟩
    rcases mergeLoop_keys _ _ p hp with hres | hall
    · simp at hres
    · have hqne : query ≠ [] := by
        intro hq0
        exact hguard.1 (by simp [hq0])
      rcases List.exists_cons_of_ne_nil hqne with ⟨t0, qs, rfl⟩
      refine ⟨t0, List.mem_cons_self t0 qs, ?_⟩
      have hmem0 := hall (post (lowerTerm t0)) (by simp)
      have hpd' : p.1 = d := hpd
      exact hpd' ▸ hmem0
/-! ### Characterisation of the intersection merge -/

/-- The exact-arithmetic term frequency a posting list assigns to a
document: the sum of the `tf` values recorded for that document (at most one
entry in any reachable index state). -/
def tfOf (pl : List (Nat × Nat)) (d : Nat) : ℚ :=
  ((pl.filter (fun p => p.1 = d)).map (fun p => (p.2 : ℚ))).sum

/-- Posting lists are sorted strictly ascending by document id
(`get_term_postings` orders by `doc_id` and the build inserts one posting
per `(term, document)` pair). -/
def strictById (pl : List (Nat × Nat)) : Prop :=
  List.Pairwise (fun p q => p.1 < q.1) pl

/-- The reference value of the document-at-a-time merge: the documents that
occur in every posting list, in the order of the first list, scored by the
summed term frequencies. -/
def refMatches (ss : List (List (Nat × Nat))) : List (Nat × ℚ) :=
  match ss with
  | [] => []
  | s₀ :: rest =>
    ((docIds s₀).filter (fun d => rest.all (fun s => d ∈ docIds s))).map
      (fun d => (d, ((s₀ :: rest).map (fun s => tfOf s d)).sum))

theorem head_le_of_strict {s : List (Nat × Nat)} (hs : strictById s)
    {q : Nat × Nat} (hq : q ∈ s) : (s.headD (0, 0)).1 ≤ q.1 := by
  cases s with
  | nil => cases hq
  | cons p ps =>
    rcases List.mem_cons.mp hq with rfl | hq
    · exact le_refl _
    · exact le_of_lt ((List.pairwise_cons.mp hs).1 q hq)

theorem foldr_max_le {l : List Nat} {b : Nat} (h : ∀ x ∈ l, x ≤ b) :
    l.foldr max 0 ≤ b := by
  induction l with
  | nil => exact Nat.zero_le b
  | cons a t ih =>
    exact max_le (h a (List.mem_cons_self a t))
      (ih (fun x hx => h x (List.mem_cons_of_mem a hx)))

/-- A document common to all the (sorted) suffixes sits at or beyond
`max_id`. -/
theorem common_ge_maxId {ss : List (List (Nat × Nat))} {d : Nat}
    (hsort : ∀ s ∈ ss, strictById s) (hcom : ∀ s ∈ ss, d ∈ docIds s) :
    maxId ss ≤ d := by
  refine foldr_max_le ?_
  intro x hx
  rcases List.mem_map.mp hx with ⟨s, hs, rfl⟩
  rcases List.mem_map.mp (hcom s hs) with ⟨q, hq, rfl⟩
  exact head_le_of_strict (hsort s hs) hq

theorem mem_dropWhile_ge {s : List (Nat × Nat)} (hs : strictById s) (c : Nat) :
    ∀ q ∈ s.dropWhile (fun p => p.1 < c), c ≤ q.1 := by
  induction s with
  | nil => intro q hq; cases hq
  | cons p ps ih =>
    intro q hq
    by_cases hp : p.1 < c
    · rw [List.dropWhile_cons_of_pos (by simpa using hp)] at hq
      exact ih (List.Pairwise.sublist (List.sublist_cons_self p ps) hs) q hq
    · rw [List.dropWhile_cons_of_neg (by simpa using hp)] at hq
      rcases List.mem_cons.mp hq with rfl | hq
      · omega
      · have := (List.pairwise_cons.mp hs).1 q hq
        omega

theorem mem_docIds_dropWhile {s : List (Nat × Nat)} {c d : Nat}
    (hd : d ∈ docIds s) (hcd : c ≤ d) :
    d ∈ docIds (s.dropWhile (fun p => p.1 < c)) := by
  rcases List.mem_map.mp hd with ⟨q, hq, rfl⟩
  rw [← List.takeWhile_append_dropWhile (p := fun p => decide (p.1 < c)) (l := s),
    List.mem_append] at hq
  rcases hq with hq | hq
  · have := List.mem_takeWhile_imp hq
    simp only [decide_eq_true_eq] at this
    omega
  · exact List.mem_map_of_mem _ hq

theorem tfOf_dropWhile {s : List (Nat × Nat)} {c d : Nat} (hcd : c ≤ d) :
    tfOf (s.dropWhile (fun p => p.1 < c)) d = tfOf s d := by
  unfold tfOf
  conv_rhs => rw [← List.takeWhile_append_dropWhile (p := fun p => decide (p.1 < c)) (l := s)]
  rw [List.filter_append, List.map_append, List.sum_append]
  have htake : (s.takeWhile (fun p => decide (p.1 < c))).filter (fun p => p.1 = d) = [] := by
    rw [List.filter_eq_nil_iff]
    intro q hq
    have := List.mem_takeWhile_imp hq
    simp only [decide_eq_true_eq] at this ⊢
    omega
  rw [htake]
  simp

theorem tfOf_head {p : Nat × Nat} {ps : List (Nat × Nat)}
    (hs : strictById (p :: ps)) : tfOf (p :: ps) p.1 = (p.2 : ℚ) := by
  unfold tfOf
  rw [List.filter_cons_of_pos (by simp)]
  have hps : ps.filter (fun q => q.1 = p.1) = [] := by
    rw [List.filter_eq_nil_iff]
    intro q hq
    have := (List.pairwise_cons.mp hs).1 q hq
    simp only [decide_eq_true_eq]
    omega
  rw [hps]
  simp

theorem tfOf_cons_ne {q : Nat × Nat} {qs : List (Nat × Nat)} {d : Nat}
    (h : ¬ q.1 = d) : tfOf (q :: qs) d = tfOf qs d := by
  unfold tfOf
  rw [List.filter_cons_of_neg (by simpa using h)]

theorem dictInsert_append_of_fresh {α β : Type} [DecidableEq α]
    {l : List (α × β)} {k : α} (v : β) (h : ∀ p ∈ l, ¬ p.1 = k) :
    dictInsert l k v = l ++ [(k, v)] := by
  unfold dictInsert
  rw [if_neg]
  simp only [List.any_eq_true, not_exists, not_and]
  intro p hp
  simpa using h p hp

theorem all_congr_on {α : Type} {l : List α} {f g : α → Bool}
    (h : ∀ x ∈ l, f x = g x) : l.all f = l.all g := by
  induction l with
  | nil => rfl
  | cons a t ih =>
    simp only [List.all_cons]
    rw [h a (List.mem_cons_self a t), ih (fun x hx => h x (List.mem_cons_of_mem a hx))]

theorem refMatches_of_exhausted {ss : List (List (Nat × Nat))}
    (hex : ∃ s ∈ ss, s = []) : refMatches ss = [] := by
  cases ss with
  | nil => rfl
  | cons s₀ rest =>
    rcases hex with ⟨s, hs, hse⟩
    subst hse
    rcases List.mem_cons.mp hs with h0 | hrest
    · simp only [refMatches]
      rw [← h0]
      rfl
    · simp only [refMatches]
      have hfe : (docIds s₀).filter
          (fun d => rest.all (fun s => d ∈ docIds s)) = [] := by
        rw [List.filter_eq_nil_iff]
        intro d _
        simp only [List.all_eq_true, decide_eq_true_eq, not_forall]
        exact ⟨[], hrest, by simp [docIds]⟩
      rw [hfe]
      rfl

theorem docIds_cons (p : Nat × Nat) (ps : List (Nat × Nat)) :
    docIds (p :: ps) = p.1 :: docIds ps := rfl

/-- When all cursors agree on the current id `max_id`, the reference result
is that document (scored by the summed head frequencies) followed by the
reference result of the tails. -/
theorem refMatches_match {ss : List (List (Nat × Nat))}
    (hcons : ss ≠ []) (hne : ∀ s ∈ ss, s ≠ []) (hsort : ∀ s ∈ ss, strictById s)
    (hhead : ∀ s ∈ ss, (s.headD (0, 0)).1 = maxId ss) :
    refMatches ss
      = (maxId ss, (ss.map (fun s => ((s.headD (0, 0)).2 : ℚ))).sum)
          :: refMatches (ss.map List.tail) := by
  rcases List.exists_cons_of_ne_nil hcons with ⟨s₀, rest, rfl⟩
  rcases List.exists_cons_of_ne_nil (hne s₀ (List.mem_cons_self _ _)) with ⟨p, ps, rfl⟩
  have hp1 : p.1 = maxId ((p :: ps) :: rest) := by
    simpa using hhead _ (List.mem_cons_self _ _)
  have hstrict₀ : strictById (p :: ps) := hsort _ (List.mem_cons_self _ _)
  have hps_gt : ∀ q ∈ ps, p.1 < q.1 := (List.pairwise_cons.mp hstrict₀).1
  have hresthead : ∀ s ∈ rest, ∃ q qs, s = q :: qs ∧ q.1 = maxId ((p :: ps) :: rest) := by
    intro s hs
    rcases List.exists_cons_of_ne_nil (hne s (List.mem_cons_of_mem _ hs)) with ⟨q, qs, rfl⟩
    refine ⟨q, qs, rfl, ?_⟩
    simpa using hhead _ (List.mem_cons_of_mem _ hs)
  have hnec : ∀ d ∈ docIds ps, ¬ d = maxId ((p :: ps) :: rest) := by
    intro d hd
    rcases List.mem_map.mp hd with ⟨q, hq, rfl⟩
    have := hps_gt q hq
    omega
  simp only [refMatches, List.map_cons, List.tail_cons, docIds_cons]
  have hpredp : (rest.all (fun s => decide (p.1 ∈ docIds s))) = true := by
    rw [List.all_eq_true]
    intro s hs
    rcases hresthead s hs with ⟨q, qs, rfl, hq1⟩
    rw [decide_eq_true_eq, docIds_cons, hp1, ← hq1]
    exact List.mem_cons_self _ _
  rw [List.filter_cons_of_pos (p := fun d => rest.all (fun s => decide (d ∈ docIds s))) hpredp,
    List.map_cons]
  have hheadval : tfOf (p :: ps) p.1 = (((p :: ps).headD (0, 0)).2 : ℚ) := by
    rw [tfOf_head hstrict₀]
    rfl
  have hrestval : List.map (fun s => tfOf s p.1) rest
      = List.map (fun s => ((s.headD (0, 0)).2 : ℚ)) rest := by
    refine List.map_congr_left (fun s hs => ?_)
    rcases hresthead s hs with ⟨q, qs, rfl, hq1⟩
    rw [hp1, ← hq1, tfOf_head (hsort _ (List.mem_cons_of_mem _ hs))]
    rfl
  have hhead_eq : ((p.1 : Nat),
        (tfOf (p :: ps) p.1 :: List.map (fun s => tfOf s p.1) rest).sum)
      = (maxId ((p :: ps) :: rest),
          ((((p :: ps).headD (0, 0)).2 : ℚ)
            :: List.map (fun s => ((s.headD (0, 0)).2 : ℚ)) rest).sum) := by
    rw [hheadval, hrestval, hp1]
  rw [hhead_eq]
  have hfilter_eq : (docIds ps).filter
        (fun d => rest.all (fun s => decide (d ∈ docIds s)))
      = (docIds ps).filter
        (fun d => (rest.map List.tail).all (fun s => decide (d ∈ docIds s))) := by
    refine List.filter_congr (fun d hd => ?_)
    rw [List.all_map]
    refine all_congr_on (fun s hs => ?_)
    rcases hresthead s hs with ⟨q, qs, rfl, hq1⟩
    simp only [Function.comp_apply, List.tail_cons]
    rw [decide_eq_decide]
    rw [docIds_cons, List.mem_cons]
    have : ¬ d = q.1 := by
      rw [hq1]
      exact hnec d hd
    tauto
  rw [hfilter_eq]
  refine congrArg _ (List.map_congr_left (fun d hd => ?_))
  have hd' : d ∈ docIds ps := List.mem_of_mem_filter hd
  have hdc : ¬ d = maxId ((p :: ps) :: rest) := hnec d hd'
  refine congrArg _ ?_
  simp only [List.sum_cons, List.map_map]
  rw [tfOf_cons_ne (fun h => hdc (h.symm.trans hp1))]
  have hmaps : List.map (fun s => tfOf s d) rest
      = List.map ((fun s => tfOf s d) ∘ List.tail) rest := by
    refine List.map_congr_left (fun s hs => ?_)
    rcases hresthead s hs with ⟨q, qs, rfl, hq1⟩
    simp only [Function.comp_apply, List.tail_cons]
    exact tfOf_cons_ne (fun h => hdc (h.symm.trans hq1))
  rw [hmaps]

/-- Advancing every cursor past the entries below `max_id` does not change
the reference result: sorted posting lists place no common document below
`max_id`. -/
theorem refMatches_advance {ss : List (List (Nat × Nat))}
    (hsort : ∀ s ∈ ss, strictById s) :
    refMatches (ss.map (fun s => s.dropWhile (fun p => p.1 < maxId ss)))
      = refMatches ss := by
  cases ss with
  | nil => rfl
  | cons s₀ rest =>
    have hstrict₀ : strictById s₀ := hsort _ (List.mem_cons_self _ _)
    simp only [refMatches, List.map_cons]
    have hge : ∀ d ∈ docIds (s₀.dropWhile (fun p => p.1 < maxId (s₀ :: rest))),
        maxId (s₀ :: rest) ≤ d := by
      intro d hd
      rcases List.mem_map.mp hd with ⟨q, hq, rfl⟩
      exact mem_dropWhile_ge hstrict₀ _ q hq
    have hfilterL :
        (docIds (s₀.dropWhile (fun p => p.1 < maxId (s₀ :: rest)))).filter
          (fun d => (rest.map (fun s => s.dropWhile (fun p => p.1 < maxId (s₀ :: rest)))).all
            (fun s => decide (d ∈ docIds s)))
        = (docIds (s₀.dropWhile (fun p => p.1 < maxId (s₀ :: rest)))).filter
          (fun d => rest.all (fun s => decide (d ∈ docIds s))) := by
      refine List.filter_congr (fun d hd => ?_)
      rw [List.all_map]
      refine all_congr_on (fun s hs => ?_)
      simp only [Function.comp_apply]
      rw [decide_eq_decide]
      constructor
      · intro hmem
        rcases List.mem_map.mp hmem with ⟨q, hq, rfl⟩
        exact List.mem_map_of_mem _ ((List.dropWhile_sublist _).mem hq)
      · intro hmem
        exact mem_docIds_dropWhile hmem (hge d hd)
    have hsplit : docIds s₀
        = docIds (s₀.takeWhile (fun p => p.1 < maxId (s₀ :: rest)))
          ++ docIds (s₀.dropWhile (fun p => p.1 < maxId (s₀ :: rest))) := by
      unfold docIds
      rw [← List.map_append, List.takeWhile_append_dropWhile]
    have htake_nil :
        (docIds (s₀.takeWhile (fun p => p.1 < maxId (s₀ :: rest)))).filter
          (fun d => rest.all (fun s => decide (d ∈ docIds s))) = [] := by
      rw [List.filter_eq_nil_iff]
      intro d hd hpred
      rcases List.mem_map.mp hd with ⟨q, hq, rfl⟩
      have hlt : q.1 < maxId (s₀ :: rest) := by
        have := List.mem_takeWhile_imp hq
        simpa using this
      have hcom : ∀ s ∈ (s₀ :: rest), q.1 ∈ docIds s := by
        intro s hs
        rcases List.mem_cons.mp hs with rfl | hs
        · exact List.mem_map_of_mem _ ((List.takeWhile_sublist _).mem hq)
        · exact of_decide_eq_true (List.all_eq_true.mp hpred s hs)
      have := common_ge_maxId hsort hcom
      omega
    have hfR : (docIds s₀).filter (fun d => rest.all (fun s => decide (d ∈ docIds s)))
        = (docIds (s₀.dropWhile (fun p => p.1 < maxId (s₀ :: rest)))).filter
          (fun d => rest.all (fun s => decide (d ∈ docIds s))) := by
      rw [hsplit, List.filter_append, htake_nil, List.nil_append]
    rw [hfilterL, hfR]
    refine List.map_congr_left (fun d hd => ?_)
    have hmxd : maxId (s₀ :: rest) ≤ d := hge d (List.mem_of_mem_filter hd)
    refine congrArg _ ?_
    simp only [List.sum_cons, List.map_map]
    rw [tfOf_dropWhile hmxd]
    have hmaps : List.map ((fun s => tfOf s d)
          ∘ (fun s => s.dropWhile (fun p => p.1 < maxId (s₀ :: rest)))) rest
        = List.map (fun s => tfOf s d) rest := by
      refine List.map_congr_left (fun s _ => ?_)
      simp only [Function.comp_apply]
      exact tfOf_dropWhile hmxd
    rw [hmaps]

/-- The merge loop of `search_by_documents` computes exactly the reference
intersection: the dictionary it was handed, followed by the documents common
to all (sorted) posting-list suffixes, scored by summed term frequency. -/
theorem mergeLoop_eq_refMatches :
    ∀ (ss : List (List (Nat × Nat))) (res : List (Nat × ℚ)),
    (∀ s ∈ ss, strictById s) →
    (∀ k ∈ res.map Prod.fst, ∀ s ∈ ss, k ∉ docIds s) →
    mergeLoop ss res = res ++ refMatches ss := by
  intro ss res
  induction ss, res using mergeLoop.induct with
  | case1 ss res h =>
    intro hsort hfresh
    rw [mergeLoop, dif_pos h]
    rcases h with rfl | hex
    · simp [refMatches]
    · rw [refMatches_of_exhausted hex]
      simp
  | case2 ss res h hm ih =>
    intro hsort hfresh
    rw [mergeLoop, dif_neg h, dif_pos hm]
    push_neg at h
    obtain ⟨hne0, hneel⟩ := h
    have hhead : ∀ s ∈ ss, (s.headD (0, 0)).1 = maxId ss := currentIds_all_eq hm
    have hmx_mem : ∀ s ∈ ss, maxId ss ∈ docIds s := by
      intro s hs
      have hmem := headD_mem (hneel s hs)
      rw [← hhead s hs]
      exact List.mem_map_of_mem _ hmem
    have hmx_fresh : ∀ p ∈ res, ¬ p.1 = maxId ss := by
      intro p hp hpeq
      rcases List.exists_mem_of_ne_nil ss hne0 with ⟨s1, hs1⟩
      exact hfresh p.1 (List.mem_map_of_mem _ hp) s1 hs1 (hpeq ▸ hmx_mem s1 hs1)
    have hsort' : ∀ s ∈ ss.map List.tail, strictById s := by
      intro s hs
      rcases List.mem_map.mp hs with ⟨t, ht, rfl⟩
      exact List.Pairwise.sublist (List.tail_sublist t) (hsort t ht)
    have hfresh' : ∀ k ∈ (dictInsert res (maxId ss)
          ((ss.map (fun s => ((s.headD (0, 0)).2 : ℚ))).sum)).map Prod.fst,
        ∀ s ∈ ss.map List.tail, k ∉ docIds s := by
      intro k hk s' hs'
      rcases List.mem_map.mp hs' with ⟨s, hs, rfl⟩
      rw [dictInsert_append_of_fresh _ hmx_fresh, List.map_append, List.mem_append] at hk
      rcases hk with hk | hk
      · intro hmem
        rcases List.mem_map.mp hmem with ⟨q, hq, rfl⟩
        exact hfresh _ hk s hs (List.mem_map_of_mem _ (List.mem_of_mem_tail hq))
      · simp only [List.map_cons, List.map_nil, List.mem_singleton] at hk
        subst hk
        intro hmem
        rcases List.exists_cons_of_ne_nil (hneel s hs) with ⟨q, qs, rfl⟩
        simp only [List.tail_cons] at hmem
        rcases List.mem_map.mp hmem with ⟨r, hr, hre⟩
        have hql : q.1 < r.1 := (List.pairwise_cons.mp (hsort _ hs)).1 r hr
        have hq1 : q.1 = maxId ss := by simpa using hhead _ hs
        have hre' : r.1 = maxId ss := hre
        omega
    rw [ih hsort' hfresh']
    rw [dictInsert_append_of_fresh _ hmx_fresh]
    rw [refMatches_match hne0 hneel hsort hhead]
    simp [List.append_assoc]
  | case3 ss res h hm ih =>
    intro hsort hfresh
    rw [mergeLoop, dif_neg h, dif_neg hm]
    have hsort' : ∀ s ∈ ss.map (fun s => s.dropWhile (fun p => p.1 < maxId ss)),
        strictById s := by
      intro s hs
      rcases List.mem_map.mp hs with ⟨t, ht, rfl⟩
      exact List.Pairwise.sublist (List.dropWhile_sublist _) (hsort t ht)
    have hfresh' : ∀ k ∈ res.map Prod.fst,
        ∀ s ∈ ss.map (fun s => s.dropWhile (fun p => p.1 < maxId ss)),
        k ∉ docIds s := by
      intro k hk s' hs'
      rcases List.mem_map.mp hs' with ⟨s, hs, rfl⟩
      intro hmem
      rcases List.mem_map.mp hmem with ⟨q, hq, rfl⟩
      exact hfresh _ hk s hs (List.mem_map_of_mem _ ((List.dropWhile_sublist _).mem hq))
    rw [ih hsort' hfresh', refMatches_advance hsort]

/-- C3 (amended: the query term list must be non-empty; on an empty query
the guard returns the empty result): for every index state (posting lists
sorted strictly by document id) and every non-empty query whose terms all
have non-empty posting lists, `search_by_documents` without an authority
vector returns exactly the documents present in the posting list of every
query term, each scored by the sum of its term frequencies over the query
terms. -/
theorem searchIntersect_exact (post : String → List (Nat × Nat))
    (query : List String) (alpha : ℚ) (hq : query ≠ [])
    (hsort : ∀ t, strictById (post t))
    (hne : ∀ t ∈ query, post (lowerTerm t) ≠ []) :
    ∀ d s, ((d, s) ∈ search_by_documents post query none alpha
      ↔ ((∀ t ∈ query, d ∈ docIds (post (lowerTerm t)))
          ∧ s = (query.map (fun t => tfOf (post (lowerTerm t)) d)).sum)) := by
  intro d s
  unfold search_by_documents search_by_documents_raw
  rw [(sortByScoreDesc_perm _).mem_iff]
  dsimp only
  have hguard : ¬ (((query.map lowerTerm).map post) = []
      ∨ (((query.map lowerTerm).map post).any (fun pl => pl = [])) = true) := by
    push_neg
    refine ⟨?_, ?_⟩
    · intro h0
      apply hq
      have hlen := congrArg List.length h0
      simp only [List.length_map, List.length_nil] at hlen
      exact List.length_eq_zero.mp hlen
    · rw [ne_eq, Bool.not_eq_true, List.any_eq_false]
      intro pl hpl
      rcases List.mem_map.mp hpl with ⟨lt, hlt, rfl⟩
      rcases List.mem_map.mp hlt with ⟨t, ht, rfl⟩
      simpa using hne t ht
  rw [if_neg hguard]
  have hsort' : ∀ pl ∈ (query.map lowerTerm).map post, strictById pl := by
    intro pl hpl
    rcases List.mem_map.mp hpl with ⟨lt, _, rfl⟩
    exact hsort lt
  have hrw : applyAuthority none alpha
      (mergeLoop ((query.map lowerTerm).map post) []) =
      mergeLoop ((query.map lowerTerm).map post) [] := rfl
  rw [hrw, mergeLoop_eq_refMatches _ [] hsort' (by simp), List.nil_append]
  rcases List.exists_cons_of_ne_nil hq with ⟨t0, qs, rfl⟩
  have hmapeq : ((qs.map lowerTerm).map post).map (fun pl => tfOf pl d)
      = qs.map (fun t => tfOf (post (lowerTerm t)) d) := by
    simp [List.map_map, Function.comp]
  simp only [List.map_cons, refMatches]
  constructor
  · intro hmem
    rcases List.mem_map.mp hmem with ⟨d', hd', heq⟩
    rw [Prod.mk.injEq] at heq
    obtain ⟨hd1, hd2⟩ := heq
    subst hd1
    obtain ⟨hd0, hpred⟩ := List.mem_filter.mp hd'
    refine ⟨?_, ?_⟩
    · intro t ht
      rcases List.mem_cons.mp ht with rfl | ht
      · exact hd0
      · have hdec := List.all_eq_true.mp hpred (post (lowerTerm t))
          (List.mem_map_of_mem post (List.mem_map_of_mem lowerTerm ht))
        exact of_decide_eq_true hdec
    · rw [← hd2, hmapeq]
  · rintro ⟨hall, hsum⟩
    refine List.mem_map.mpr ⟨d, ?_, ?_⟩
    · refine List.mem_filter.mpr ⟨hall t0 (List.mem_cons_self _ _), ?_⟩
      rw [List.all_eq_true]
      intro pl hpl
      rcases List.mem_map.mp hpl with ⟨lt, hlt, rfl⟩
      rcases List.mem_map.mp hlt with ⟨t, ht, rfl⟩
      exact decide_eq_true (hall t (List.mem_cons_of_mem _ ht))
    · rw [Prod.mk.injEq]
      exact ⟨rfl, by rw [hsum, hmapeq]⟩

theorem postEx_sorted : ∀ t, strictById (postEx t) := by
  intro t
  unfold postEx strictById
  split
  · decide
  · split
    · decide
    · decide

/-- C3 counterexample: the claim quantifies over every query term list whose
terms all have non-empty posting lists, which the empty query satisfies
vacuously; there the claimed characterisation fails — `search_by_documents`
returns the empty result, while "the documents in the posting list of every
query term, scored by the (empty) frequency sum" would contain every
document, e.g. document `1` with score `0`. -/
theorem searchIntersect_empty_query_cx :
    ¬ (((1 : Nat), (0 : ℚ)) ∈ search_by_documents postEx [] none (1/10)
      ↔ ((∀ t ∈ ([] : List String), (1 : Nat) ∈ docIds (postEx (lowerTerm t)))
          ∧ (0 : ℚ) = (([] : List String).map
              (fun t => tfOf (postEx (lowerTerm t)) (1 : Nat))).sum)) := by
  intro h
  have h2 := h.mpr ⟨fun t ht => absurd ht (List.not_mem_nil t), by simp⟩
  have h3 : search_by_documents postEx [] none (1/10) = [] := by
    unfold search_by_documents search_by_documents_raw
    simp [sortByScoreDesc]
  rw [h3] at h2
  cases h2

/-- Witness for C3 (amended) on the concrete postings: for the query
`["a", "b"]` the characterisation holds at document `2` with score
`5 = 2 + 3`. -/
theorem searchIntersect_exact_instance :
    ((["a", "b"] : List String) ≠ []
      ∧ (∀ t, strictById (postEx t))
      ∧ (∀ t ∈ (["a", "b"] : List String), postEx (lowerTerm t) ≠ []))
    ∧ (((2 : Nat), (5 : ℚ)) ∈ search_by_documents postEx ["a", "b"] none (1/10)
      ↔ ((∀ t ∈ (["a", "b"] : List String), (2 : Nat) ∈ docIds (postEx (lowerTerm t)))
          ∧ (5 : ℚ) = ((["a", "b"] : List String).map
              (fun t => tfOf (postEx (lowerTerm t)) 2)).sum)) :=
  ⟨⟨by decide, postEx_sorted, by decide⟩,
    searchIntersect_exact postEx ["a", "b"] (1/10) (by decide) postEx_sorted (by decide) 2 5⟩

/-! ### Tokenizer splitting behaviour -/

theorem findTokens_nil : findTokens [] = [] := by
  rw [findTokens]

theorem findTokens_cons_pos {c : Char} (hc : isWordChar c = true) (cs : List Char) :
    findTokens (c :: cs)
      = (c :: cs.takeWhile isWordChar) :: findTokens (cs.dropWhile isWordChar) := by
  rw [findTokens, if_pos hc]

theorem findTokens_cons_neg {c : Char} (hc : isWordChar c = false) (cs : List Char) :
    findTokens (c :: cs) = findTokens cs := by
  rw [findTokens, if_neg (by simp [hc])]

theorem takeWhile_eq_self_of_all {p : Char → Bool} {l : List Char}
    (h : ∀ a ∈ l, p a = true) : l.takeWhile p = l := by
  have h2 := @List.takeWhile_append_of_pos Char p l [] h
  simpa using h2

/-- A non-word character always splits the token stream: `re.findall` on
`xs ++ sep :: ys` returns the matches of `xs` followed by those of `ys`. -/
theorem findTokens_append_sep (sep : Char) (hsep : isWordChar sep = false) :
    ∀ (xs ys : List Char), findTokens (xs ++ sep :: ys) = findTokens xs ++ findTokens ys
  | [], ys => by
    rw [List.nil_append, findTokens_cons_neg hsep, findTokens_nil, List.nil_append]
  | c :: xs, ys => by
    by_cases hc : isWordChar c
    · rw [List.cons_append, findTokens_cons_pos hc (xs ++ sep :: ys),
        findTokens_cons_pos hc xs]
      by_cases hall : ∀ a ∈ xs, isWordChar a = true
      · rw [List.takeWhile_append_of_pos hall, List.dropWhile_append_of_pos hall]
        rw [List.takeWhile_cons_of_neg (by simp [hsep]),
            List.dropWhile_cons_of_neg (by simp [hsep])]
        rw [findTokens_cons_neg hsep ys]
        have ht : xs.takeWhile isWordChar = xs := takeWhile_eq_self_of_all hall
        have hd : xs.dropWhile isWordChar = [] :=
          List.dropWhile_eq_nil_iff.mpr hall
        rw [ht, hd, findTokens_nil, List.append_nil]
        simp
      · have hlen : ¬ (xs.takeWhile isWordChar).length = xs.length := by
          intro hl
          apply hall
          intro a ha
          have hts : xs.takeWhile isWordChar = xs :=
            (List.takeWhile_sublist _).eq_of_length hl
          exact List.mem_takeWhile_imp (hts ▸ ha)
        have hde : ¬ (xs.dropWhile isWordChar).isEmpty = true := by
          rw [List.isEmpty_iff, List.dropWhile_eq_nil_iff]
          exact hall
        rw [List.takeWhile_append, if_neg hlen, List.dropWhile_append, if_neg hde]
        rw [findTokens_append_sep sep hsep (xs.dropWhile isWordChar) ys]
        simp
    · have hc' : isWordChar c = false := by simpa using hc
      rw [List.cons_append, findTokens_cons_neg hc', findTokens_cons_neg hc' xs]
      exact findTokens_append_sep sep hsep xs ys
termination_by xs _ => xs.length
decreasing_by
  · simp only [List.length_cons]
    exact Nat.lt_succ_of_le (List.dropWhile_sublist _).length_le
  · simp

/-- A non-empty all-word-character string is one single match. -/
theorem findTokens_all_word {ws : List Char} (hne : ws ≠ [])
    (hall : ∀ c ∈ ws, isWordChar c = true) : findTokens ws = [ws] := by
  rcases List.exists_cons_of_ne_nil hne with ⟨c, cs, rfl⟩
  rw [findTokens_cons_pos (hall c (List.mem_cons_self _ _)) cs]
  rw [takeWhile_eq_self_of_all (fun a ha => hall a (List.mem_cons_of_mem _ ha))]
  rw [List.dropWhile_eq_nil_iff.mpr (fun a ha => hall a (List.mem_cons_of_mem _ ha))]
  rw [findTokens_nil]

/-- C8 (amended): the tokenizer splits on the word-character class of
`TOKEN_RE`, which is exactly ASCII Latin letters, ASCII digits and the
Cyrillic range U+0410–U+044F (the Russian alphabet **without** Ё/ё; no
extended Latin range is included), and every token is lower-cased;
characters outside this class — including extended Latin letters such as é
and the Cyrillic letter ё — act as separators. -/
theorem tokenize_word_class :
    (∀ (xs ys : List Char) (sep : Char), isWordChar sep = false →
        tokenize (xs ++ sep :: ys) = tokenize xs ++ tokenize ys)
    ∧ (∀ ws : List Char, ws ≠ [] → (∀ c ∈ ws, isWordChar c = true) →
        tokenize ws = [ws.map pyLower])
    ∧ (∀ c : Char, isWordChar c = true
        ↔ ((0x41 ≤ c.toNat ∧ c.toNat ≤ 0x5A) ∨ (0x61 ≤ c.toNat ∧ c.toNat ≤ 0x7A)
            ∨ (0x30 ≤ c.toNat ∧ c.toNat ≤ 0x39)
            ∨ (0x410 ≤ c.toNat ∧ c.toNat ≤ 0x44F))) := by
  refine ⟨?_, ?_, ?_⟩
  · intro xs ys sep hsep
    unfold tokenize
    rw [findTokens_append_sep sep hsep xs ys, List.map_append]
  · intro ws hne hall
    unfold tokenize
    rw [findTokens_all_word hne hall]
    rfl
  · intro c
    simp only [isWordChar, Bool.or_eq_true, Bool.and_eq_true, decide_eq_true_eq]
    omega

/-- C8 counterexample: the Cyrillic letter ё (U+0451) and the extended
Latin letter é (U+00E9) are not in the tokenizer's word-character class and
act as separators, contradicting the claimed inclusion of extended Latin
and full Cyrillic letter ranges. -/
theorem tokenizer_missing_letters_cx :
    isWordChar (Char.ofNat 0x451) = false ∧ isWordChar (Char.ofNat 0xE9) = false
    ∧ tokenize ['п', 'ё', 'с'] = [['п'], ['с']]
    ∧ tokenize ['c', 'a', 'f', 'é'] = [['c', 'a', 'f']] := by
  refine ⟨by decide, by decide, ?_, ?_⟩
  · simp +decide [tokenize, findTokens, isWordChar]
  · simp +decide [tokenize, findTokens, isWordChar, pyLower]

/-- Witness for C8 (amended). -/
theorem tokenize_word_class_instance :
    (isWordChar ' ' = false ∧ (['a'] : List Char) ≠ []
      ∧ (∀ c ∈ (['a'] : List Char), isWordChar c = true))
    ∧ tokenize (['a'] ++ ' ' :: ['B']) = tokenize ['a'] ++ tokenize ['B']
    ∧ tokenize ['a'] = [['a'].map pyLower] :=
  ⟨⟨by decide, by decide, by decide⟩,
    tokenize_word_class.1 ['a'] ['B'] ' ' (by decide),
    tokenize_word_class.2.1 ['a'] (by decide) (by decide)⟩

/-! ### Index build and malformed records -/

/-- C9 (amended): a malformed corpus record (missing content) is not
skipped: the build aborts at the first such record — the index keeps
exactly the postings of the records before it and the build does not
complete; it completes (with every document's postings) only when every
record is well-formed. -/
theorem build_aborts_at_malformed :
    (∀ (pre rest : List (Nat × Option (List Char))) (i : Nat),
      (∀ r ∈ pre, r.2 ≠ none) →
      build_inverted_index (pre ++ (i, none) :: rest)
        = (pre.map (fun r => (r.1, counterItems (tokenize (r.2.getD [])))), false))
    ∧ (∀ docs : List (Nat × Option (List Char)), (∀ r ∈ docs, r.2 ≠ none) →
      build_inverted_index docs
        = (docs.map (fun r => (r.1, counterItems (tokenize (r.2.getD [])))), true)) := by
  constructor
  · intro pre rest i hpre
    induction pre with
    | nil => simp [build_inverted_index]
    | cons r rs ih =>
      rcases r with ⟨id, content⟩
      cases content with
      | none =>
        have hco := hpre (id, none) (List.mem_cons_self _ _)
        simp at hco
      | some c =>
        simp only [List.cons_append, build_inverted_index, List.append_eq]
        rw [ih (fun x hx => hpre x (List.mem_cons_of_mem _ hx))]
        simp
  · intro docs hdocs
    induction docs with
    | nil => simp [build_inverted_index]
    | cons r rs ih =>
      rcases r with ⟨id, content⟩
      cases content with
      | none =>
        have hco := hdocs (id, none) (List.mem_cons_self _ _)
        simp at hco
      | some c =>
        simp only [build_inverted_index]
        rw [ih (fun x hx => hdocs x (List.mem_cons_of_mem _ hx))]
        simp

/-- C9 counterexample: with a malformed second record the build aborts —
it does not complete, and the postings of the well-formed third document
are missing from the output, instead of the record being skipped. -/
theorem build_abort_cx :
    (build_inverted_index [(1, some ['a']), (2, none), (3, some ['b'])]).2 = false
    ∧ (build_inverted_index [(1, some ['a']), (2, none), (3, some ['b'])]).1
        = [(1, [(['a'], 1)])]
    ∧ ¬ ∃ pl, (3, pl) ∈ (build_inverted_index [(1, some ['a']), (2, none), (3, some ['b'])]).1 := by
  have hev : build_inverted_index [(1, some ['a']), (2, none), (3, some ['b'])]
      = ([(1, [(['a'], 1)])], false) := by
    simp only [build_inverted_index]
    simp +decide [counterItems, tokenize, findTokens, isWordChar, pyLower, dictInsert, pyGet]
  rw [hev]
  refine ⟨rfl, rfl, ?_⟩
  rintro ⟨pl, hpl⟩
  simp at hpl

/-- Witness for C9 (amended) at a concrete corpus. -/
theorem build_aborts_at_malformed_instance :
    (∀ r ∈ ([(1, some ['a'])] : List (Nat × Option (List Char))), r.2 ≠ none)
    ∧ build_inverted_index ([(1, some ['a'])] ++ (2, none) :: [(3, some ['b'])])
        = ([(1, some ['a'])].map
            (fun r : Nat × Option (List Char) =>
              (r.1, counterItems (tokenize (r.2.getD [])))), false) :=
  ⟨by decide,
    build_aborts_at_malformed.1 [(1, some ['a'])] [(3, some ['b'])] 2 (by decide)⟩

end BigData
